import Mathlib

/-!
Verification development for the rs-gavisunk SUNK pipeline.

Shallow embedding of the Rust sources in src/: pure list-based models of the
dataframe pipelines (polars expressions are given their documented semantics),
with machine integers modelled as Nat/Int (the pipelines never overflow on the
inputs considered, and sortedness keeps all u64 subtractions non-negative).
String-keyed hash maps are modelled as association lists in insertion order;
every property proved below is independent of the iteration order except where
a comment says otherwise.
-/

namespace Gavisunk

/-! ## Generic list utilities (sorting, grouping) -/

/-- Lexicographic strict order on strings via their character lists
(byte/codepoint order, matching polars string ordering for ASCII names). -/
def strLt (a b : String) : Bool := decide (a.data < b.data)

/-- Insert into a sorted list, keeping the new element before any later
element it compares le to (stable insertion). -/
def insertSorted (le : α → α → Bool) (a : α) : List α → List α
  | [] => [a]
  | b :: t => if le a b then a :: b :: t else b :: insertSorted le a t

/-- Stable insertion sort; models a polars sort by the comparator key
(polars sorts are not guaranteed stable, so no claim below depends on the
relative order of equal keys). -/
def sortOn (le : α → α → Bool) (l : List α) : List α := l.foldr (insertSorted le) []

/-- Remove duplicates keeping the first occurrence of each value. -/
def dedupFirst [DecidableEq κ] : List κ → List κ
  | [] => []
  | a :: t => a :: (dedupFirst t).filter (fun b => ¬ b = a)

/-- Group a list by a key: groups appear in first-occurrence order of their
key, each group holding the rows of that key in original order.  Models a
polars group_by (whose group order is unspecified; no claim below depends on
group order). -/
def groupByKey [DecidableEq κ] (key : α → κ) (l : List α) : List (κ × List α) :=
  (dedupFirst (l.map key)).map (fun k => (k, l.filter (fun b => key b = k)))

/-! ## Nucleotides and k-mers -/

/-- A nucleotide base.  The external kmers crate 2-bit-encodes k-mers; two
k-mers are equal iff their base sequences are, so a k-mer is modelled as the
base list itself (rendering to a string is a bijection and is elided). -/
inductive Base where
  | A | C | G | T
deriving DecidableEq, Repr

/-- Watson-Crick complement of one base. -/
def Base.comp : Base → Base
  | .A => .T
  | .T => .A
  | .C => .G
  | .G => .C

abbrev Kmer := List Base

/-- Reverse complement of a k-mer (the crate's Kmer::rev_comp). -/
def rev_comp (km : Kmer) : Kmer := (km.map Base.comp).reverse

/-- The k-mer window of length k starting at 0-based position p. -/
def windowAt (seq : List Base) (p k : Nat) : Kmer := (seq.drop p).take k

/-- Modelled from the spec: Kmer::with_many_both_pos of the external kmers
crate (not part of this repository) iterates every k-mer window of the
sequence and hands the callback the window's 0-based start position together
with the literal and the reverse-complement k-mer; spec 4.B step 1 describes
the emitted position as the window's 1-based start, the + 1 being applied by
the caller in get_kmer_counts_pos. -/
def with_many_both_pos (k : Nat) (seq : List Base) : List (Nat × Kmer × Kmer) :=
  (List.range (seq.length + 1 - k)).map
    (fun p => (p, windowAt seq p k, rev_comp (windowAt seq p k)))

/-! ## get_kmers.rs -/

/-- One entry of the per-sequence map: k-mer, running count, stored 1-based
position of the first insertion. -/
abbrev KmerMap := List (Kmer × Nat × Nat)

/-- The entry update of get_kmer_counts_pos: bump the count of an existing
key, or insert (count 1, position pos + 1); the stored position is set on the
first insertion only. -/
def bumpKmer (km : Kmer) (pos : Nat) : KmerMap → KmerMap
  | [] => [(km, 1, pos + 1)]
  | e :: t => if e.1 = km then (e.1, e.2.1 + 1, e.2.2) :: t else e :: bumpKmer km pos t

/-- get_kmer_counts_pos (src/get_kmers.rs:27-49): for every window insert the
forward k-mer then its reverse complement, tracking count and first position.
The Rust HashMap is modelled as an association list in insertion order. -/
def get_kmer_counts_pos (k : Nat) (seq : List Base) : KmerMap :=
  (with_many_both_pos k seq).foldl
    (fun m w => bumpKmer w.2.2 w.1 (bumpKmer w.2.1 w.1 m)) []

/-- Count held in a map for a key (0 when absent); the first entry with the
key holds the count (bumpKmer keeps keys unique). -/
def mapCount : KmerMap → Kmer → Nat
  | [], _ => 0
  | e :: t, km => if e.1 = km then e.2.1 else mapCount t km

/-- Global count of a k-mer summed over all per-sequence maps
(get_sunk_positions' kmer_cnts fold). -/
def globalCount (maps : List (String × KmerMap)) (km : Kmer) : Nat :=
  (maps.map (fun nm => mapCount nm.2 km)).sum

/-- Retain, per sequence, only the k-mers whose global count is exactly 1
(get_sunk_positions' retain over kmer_cnts). -/
def retainSunks (maps : List (String × KmerMap)) : List (String × KmerMap) :=
  maps.map (fun nm => (nm.1, nm.2.filter (fun e => globalCount maps e.1 = 1)))

/-- The keep/remove lists of the canonical deduplication loop in
get_sunk_positions: iterate the retained map; a k-mer whose reverse
complement is present, not yet kept and not yet removed, is kept and its
reverse complement removed.  Iteration order is the model's insertion order
(Rust iterates a HashMap; only which member of each pair survives depends on
the order, and no claim below depends on that choice). -/
def canonLists (m : KmerMap) : List Kmer × List Kmer :=
  m.foldl
    (fun kr e =>
      let rc := rev_comp e.1
      if ¬ rc ∈ kr.2 ∧ (m.find? (fun e2 => e2.1 = rc)).isSome ∧ ¬ rc ∈ kr.1
      then (e.1 :: kr.1, rc :: kr.2)
      else kr)
    ([], [])

/-- The final retain of the canonical branch: keep exactly the k-mers on the
keep list. -/
def canonicalRetain (m : KmerMap) : KmerMap :=
  m.filter (fun e => e.1 ∈ (canonLists m).1)

/-- A row of the SUNK table (columns ctg, cpos, kmer, group). -/
structure SunkRow where
  ctg : String
  cpos : Nat
  kmer : Kmer
  group : Nat
deriving DecidableEq, Repr

/-- Collect (ctg, cpos, kmer) triples from the per-sequence maps
(the column-building loop of get_sunk_positions). -/
def sunkRowsOf (maps : List (String × KmerMap)) : List (String × Nat × Kmer) :=
  maps.flatMap (fun nm => nm.2.map (fun e => (nm.1, e.2.2, e.1)))

/-- Comparator of the sort by (ctg, cpos). -/
def ctgCposLe (a b : String × Nat × Kmer) : Bool :=
  strLt a.1 b.1 || (a.1 = b.1 && a.2.1 ≤ b.2.1)

/-- The boolean break flags: cpos minus the previous cpos (shift filled with
0), compared greater-than 1.  Natural subtraction is exact here because the
rows are sorted by cpos within each ctg. -/
def breakFlags (cposes : List Nat) : List Bool :=
  List.zipWith (fun c p => decide (1 < c - p)) cposes (0 :: cposes)

/-- Run-length ids over a boolean list, numbered from 0 and incremented at
every value change (polars rle_id). -/
def rleVals : Bool → Nat → List Bool → List Nat
  | _, _, [] => []
  | prev, i, b :: t =>
    let i2 := if b = prev then i else i + 1
    i2 :: rleVals b i2 t

def rle_id : List Bool → List Nat
  | [] => []
  | b :: t => 0 :: rleVals b 0 t

/-- The group renumbering of get_sunk_positions (src/get_kmers.rs:141-155):
0 becomes 1, even ids become id + 1, odd ids stay. -/
def remapGroup (g : Nat) : Nat :=
  if g = 0 then 1 else if g % 2 = 0 then g + 1 else g

/-- Per-ctg run-length group ids after renumbering. -/
def blockGroupIds (cposes : List Nat) : List Nat :=
  (rle_id (breakFlags cposes)).map remapGroup

/-- cpos of the first row of the block carrying a given group id
(col cpos .first() over ctg and group). -/
def firstCposWithId (cposes ids : List Nat) (i : Nat) : Nat :=
  match (cposes.zip ids).find? (fun ci => ci.2 = i) with
  | some ci => ci.1
  | none => 0

/-- Final group value for every row of one ctg block. -/
def blockGroups (cposes : List Nat) : List Nat :=
  let ids := blockGroupIds cposes
  ids.map (firstCposWithId cposes ids)

/-- get_sunk_positions (src/get_kmers.rs:63-162): per-sequence k-mer maps,
global count-1 retention, optional canonical deduplication, row collection,
sort by (ctg, cpos), and the run-length group computation. -/
def get_sunk_positions (fasta : List (String × List Base)) (k : Nat)
    (canonical : Bool) : List SunkRow :=
  let maps := fasta.map (fun ns => (ns.1, get_kmer_counts_pos k ns.2))
  let retained := retainSunks maps
  let deduped :=
    if canonical then retained.map (fun nm => (nm.1, canonicalRetain nm.2)) else retained
  let rows := sortOn ctgCposLe (sunkRowsOf deduped)
  (groupByKey (fun r => r.1) rows).flatMap (fun kg =>
    let cposes := kg.2.map (fun r => r.2.1)
    (kg.2.zip (blockGroups cposes)).map (fun rg => ⟨rg.1.1, rg.1.2.1, rg.1.2.2, rg.2⟩))

/-- The concrete failing FASTA for claim C1: one sequence A C T T T T C A.
Its 2-mer SUNK windows sit at 1-based positions 1, 2, 6 and 7. -/
def fastaC1 : List (String × List Base) :=
  [("s", [.A, .C, .T, .T, .T, .T, .C, .A])]

/-! ## filter_bad_sunks.rs -/

/-- The composite id string ctg ++ ":" ++ group of filter_bad_sunks and
create_sunk_graph. -/
def sunkId (ctg : String) (group : Int) : String := ctg ++ ":" ++ toString group

/-- Coverage per id: group the (ctg, group) rows by composite id and count
(the group_by / agg(len) step of filter_bad_sunks). -/
def idCoverage (rows : List (String × Int)) : List (String × Nat) :=
  (groupByKey (fun r => sunkId r.1 r.2) rows).map (fun kg => (kg.1, kg.2.length))

/-- Mode of a list of counts (polars mode().first()): a value of maximal
multiplicity.  Polars leaves the order of tied modes unspecified; the model
takes the first-encountered one (every input used below has a unique mode). -/
def modeFirst (l : List Nat) : Nat :=
  match dedupFirst l with
  | [] => 0
  | h :: t => t.foldl (fun best v => if l.count best < l.count v then v else best) h

/-- The tail test count > mean_count + sqrt(mean_count) * 4 of
filter_bad_sunks, rendered in exact integer arithmetic: for naturals c and m,
c > m + 4 * sqrt m holds over the reals iff m < c and 16 * m < (c - m) ^ 2
(both sides strict, and squaring is monotone on nonnegatives; the f64
rounding of the Rust sqrt is immaterial at these magnitudes). -/
def exceedsTail (c m : Nat) : Bool := decide (m < c) && decide (16 * m < (c - m) * (c - m))

/-- filter_bad_sunks (src/filter_bad_sunks.rs:3-36): coverage per id, keep
only counts > 2, broadcast the mode of the kept counts, then keep rows whose
count exceeds the tail bound or is < 2 (the latter can never fire, the
earlier filter already removed those rows). -/
def filter_bad_sunks (rows : List (String × Int)) : List (String × Nat) :=
  let counts := idCoverage rows
  let kept := counts.filter (fun e => 2 < e.2)
  let mean_count := modeFirst (kept.map (fun e => e.2))
  kept.filter (fun e => exceedsTail e.2 mean_count || decide (e.2 < 2))

/-- The spec's bad-SUNK test histogram id1:10, id2:11, id3:10, id4:50, id5:1
realised as (ctg, group) rows. -/
def rowsC2 : List (String × Int) :=
  List.replicate 10 ("c", (1 : Int)) ++ List.replicate 11 ("c", 2) ++
    List.replicate 10 ("c", 3) ++ List.replicate 50 ("c", 4) ++ [("c", 5)]

/-! ## map_kmers.rs -/

/-- A row of the read-SUNK table (columns read, rpos, ctg, cpos, group). -/
structure ReadSunkRow where
  read : String
  rpos : Nat
  ctg : String
  cpos : Nat
  group : Nat
deriving DecidableEq, Repr

/-- Modelled from the spec: SimplePosIndex of the external kmers crate (not
part of this repository), built by add_seq_both, holds every window position
of the sequence under both the window and its reverse complement; find
returns the 0-based start positions in ascending order (spec 4.C steps 1-2,
positions made 1-based by the caller). -/
def findPositions (k : Nat) (seq : List Base) (km : Kmer) : List Nat :=
  (List.range (seq.length + 1 - k)).filter
    (fun p => windowAt seq p k = km ∨ rev_comp (windowAt seq p k) = km)

/-- map_sunks_to_seq (src/map_kmers.rs:9-37): bails when no SUNKs are given,
otherwise reports (read, sunk, 1-based position) for every index hit; the
index k-mer size is the length of the first SUNK. -/
def map_sunks_to_seq (sunks : List Kmer) (seq : List Base) (read : String) :
    Except String (List (String × Kmer × Nat)) :=
  match sunks with
  | [] => .error "No SUNKs given."
  | k0 :: _ =>
    .ok (sunks.flatMap (fun sunk =>
      (findPositions k0.length seq sunk).map (fun p => (read, sunk, p + 1))))

/-- The polars left join of the mapped rows with df_sunks on kmer: one output
row per matching df_sunks row, in left-row-major order.  A mapped row's kmer
is always drawn from df_sunks, so the unmatched (null-filled) case of a left
join cannot arise and is not modelled. -/
def joinOnKmer (mapped : List (String × Kmer × Nat)) (df_sunks : List SunkRow) :
    List ReadSunkRow :=
  mapped.flatMap (fun rkp =>
    (df_sunks.filter (fun s => s.kmer = rkp.2.1)).map
      (fun s => ⟨rkp.1, rkp.2.2, s.ctg, s.cpos, s.group⟩))

/-- Comparator for sort_by cpos (ties in unspecified order in polars; the
claims below therefore only assert existence of a matching source row). -/
def cposFirstLe (a b : ReadSunkRow) : Bool := a.cpos ≤ b.cpos

/-- The group_by (read, ctg, group) aggregation of map_sunks_to_reads:
cpos.first() and rpos sorted by cpos, first(). -/
def aggGroups (joined : List ReadSunkRow) : List ReadSunkRow :=
  (groupByKey (fun r => (r.read, r.ctg, r.group)) joined).map (fun kg =>
    let cpos0 := (kg.2.map (fun r => r.cpos)).headD 0
    let rpos0 := ((sortOn cposFirstLe kg.2).map (fun r => r.rpos)).headD 0
    ⟨kg.1.1, rpos0, kg.1.2.1, cpos0, kg.1.2.2⟩)

/-- Comparator of the final sort by (read, rpos). -/
def readRposLe (a b : ReadSunkRow) : Bool :=
  strLt a.read b.read || (a.read = b.read && a.rpos ≤ b.rpos)

/-- The concatenation of the per-read map_sunks_to_seq results, in read-major
order (the rayon reduce concatenates the per-task vectors in task order).
A task whose call errors panics in the source; the error arm here is
unreachable whenever this definition is used (the caller returns none first
when a panic can happen). -/
def mappedRows (reads : List (String × List Base)) (df_sunks : List SunkRow) :
    List (String × Kmer × Nat) :=
  reads.flatMap (fun rs =>
    match map_sunks_to_seq (df_sunks.map (fun s => s.kmer)) rs.2 rs.1 with
    | .ok rows => rows
    | .error _ => [])

/-- The joined (read, rpos, ctg, cpos, group) occurrence rows of
map_sunks_to_reads before the per-(read, ctg, group) aggregation. -/
def joinedRows (reads : List (String × List Base)) (df_sunks : List SunkRow) :
    List ReadSunkRow :=
  joinOnKmer (mappedRows reads df_sunks) df_sunks

/-- map_sunks_to_reads (src/map_kmers.rs:50-101).  Each parallel read task
unwraps map_sunks_to_seq, so with zero SUNKs and at least one read a worker
panics, modelled as none; otherwise the mapped rows are joined with df_sunks
on kmer, deduplicated per (read, ctg, group) and sorted by (read, rpos). -/
def map_sunks_to_reads (reads : List (String × List Base))
    (df_sunks : List SunkRow) : Option (List ReadSunkRow) :=
  if reads ≠ [] ∧ df_sunks.map (fun s => s.kmer) = [] then none
  else some (sortOn readRposLe (aggGroups (joinedRows reads df_sunks)))

/-! ## assign_read_ctg.rs -/

/-- A row of the read-SUNK table as consumed by assign_read_to_ctg_w_ort
(positions as i64, the dtype of the cached TSV the pipeline reloads). -/
structure ReadCtgRow where
  read : String
  ctg : String
  cpos : Int
  rpos : Int
deriving DecidableEq, Repr

/-- col - col.shift(1) followed by drop_nulls: the shifted column starts with
a null, subtraction propagates it, drop_nulls removes it. -/
def polarsDiffs (xs : List Int) : List Int :=
  (xs.zip ((none : Option Int) :: xs.map some)).filterMap
    (fun ab => ab.2.map (fun b => ab.1 - b))

/-- Consecutive differences in row order (the claim-side notion). -/
def consecDiffs (xs : List Int) : List Int :=
  List.zipWith (fun a b => a - b) xs.tail xs

/-- Arithmetic mean as an exact rational (polars computes an f64; only its
sign is consumed, and the sign of a rational mean equals the sign of the f64
mean for these magnitudes). -/
def meanQ (l : List Int) : ℚ := (l.sum : ℚ) / l.length

/-- A row of the orientation table lf_ort. -/
structure OrtRow where
  read : String
  ctg : String
  cort : Bool
  rort : Bool
  ort : String
deriving DecidableEq, Repr

/-- The pre-filter of assign_read_to_ctg_w_ort: keep rows whose (read, ctg)
class has more than one row. -/
def keptRows (rows : List ReadCtgRow) : List ReadCtgRow :=
  rows.filter (fun r =>
    1 < (rows.filter (fun b => b.read = r.read ∧ b.ctg = r.ctg)).length)

/-- The orientation table lf_ort of assign_read_to_ctg_w_ort
(src/assign_read_ctg.rs:38-69): per (read, ctg) group, cort and rort are the
signs of the means of the shifted differences of cpos and rpos, and ort is
"+" when both hold, otherwise "-". -/
def ortTable (rows : List ReadCtgRow) : List OrtRow :=
  (groupByKey (fun r => (r.read, r.ctg)) (keptRows rows)).map (fun kg =>
    let cort := decide (0 < meanQ (polarsDiffs (kg.2.map (fun r => r.cpos))))
    let rort := decide (0 < meanQ (polarsDiffs (kg.2.map (fun r => r.rpos))))
    ⟨kg.1.1, kg.1.2, cort, rort, if rort && cort then "+" else "-"⟩)

/-! ## sunk_graph.rs -/

/-- A row of the per-contig read-SUNK slice consumed by create_sunk_graph
(i64 columns). -/
structure GraphRow where
  read : String
  rpos : Int
  ctg : String
  cpos : Int
  group : Int
deriving DecidableEq, Repr

/-- Strict upper-triangle pair list in row-major order; this is both the
order of itertools combinations(2) and the condensed order of the distmat
pairwise matrices, which the source relies on being aligned. -/
def pairs : List α → List (α × α)
  | [] => []
  | a :: t => t.map (fun b => (a, b)) ++ pairs t

/-- Keep the first element of each key class (polars unique keep-first, and
the chunked first-per-group dedups). -/
def dedupByKey [DecidableEq κ] (key : α → κ) : List α → List α
  | [] => []
  | a :: t => a :: (dedupByKey key t).filter (fun b => ¬ key b = key a)

/-- Merge the classes containing the two edge ends (no-op when either end is
unknown or both ends already share a class). -/
def mergeClasses [DecidableEq α] (classes : List (List α)) (e : α × α) :
    List (List α) :=
  match classes.find? (fun c => e.1 ∈ c), classes.find? (fun c => e.2 ∈ c) with
  | some ca, some cb =>
    if ca = cb then classes
    else (ca ++ cb) :: classes.filter (fun c => ¬ c = ca ∧ ¬ c = cb)
  | _, _ => classes

/-- Connected components of an undirected graph as the classes reached from
singletons by merging along every edge.  Models kosaraju_scc of petgraph,
which on an undirected graph returns exactly the connected components (in an
order no claim depends on). -/
def connectedComponents [DecidableEq α] (nodes : List α) (edges : List (α × α)) :
    List (List α) :=
  edges.foldl mergeClasses (nodes.map (fun n => [n]))

/-- Condensed pairwise absolute distances (distmat from_pw_distances). -/
def pairsDst (l : List Int) : List Nat := (pairs l).map (fun ab => (ab.1 - ab.2).natAbs)

/-- The in-band mask of get_read_largest_sunk_graph_component: the source
computes 0.9 < rpos_dst / cpos_dst < 1.1 over f32; the test is rendered
exactly over the integers as 9 * c < 10 * r and 10 * r < 11 * c (equivalent
for c > 0, and both false for c = 0, where the f32 quotient is inf or NaN
and the conjunction of its comparisons is false). -/
def maskOf (rows : List GraphRow) : List Bool :=
  List.zipWith (fun r c => decide (9 * c < 10 * r) && decide (10 * r < 11 * c))
    (pairsDst (rows.map (fun r => r.rpos))) (pairsDst (rows.map (fun r => r.cpos)))

/-- The condensed pairwise sign matrix (from_pw_distances_with a > b). -/
def signsOf (rows : List GraphRow) : List Bool :=
  (pairs (rows.map (fun r => r.rpos))).map (fun ab => decide (ab.2 < ab.1))

/-- The sign entries surviving the in-band mask (rpos_sign_arr.filter). -/
def maskedSigns (rows : List GraphRow) : List Bool :=
  ((signsOf rows).zip (maskOf rows)).filterMap (fun sm => if sm.2 then some sm.1 else none)

/-- get_read_largest_sunk_graph_component (src/sunk_graph.rs:63-270).
Pairwise distances, signs and id/rpos pairs over the strict upper triangle;
in-band sum guard; majority orientation over the masked signs (the polars
value_counts row order on a tie is unspecified, the first masked sign is
taken then); orientation-consistent pair retention; multi-sunk marking
(> 2 distinct rpos under one id pair); keep-first dedup per
(id1, id2, multi); the largest connected component, with the last of equally
large components taken as Iterator::max_by does.  The error branch
reproduces the bail when no masked sign exists; the final None branch is the
empty-components case.  Edge weights are informational in the source and not
modelled. -/
def get_read_largest_sunk_graph_component (rows : List GraphRow) :
    Except String (Option (List Int)) :=
  let id_comb := pairs (rows.map (fun r => r.group))
  let rpos_comb := pairs (rows.map (fun r => r.rpos))
  if (maskOf rows).count true < 1 then .ok none
  else
    match maskedSigns rows with
    | [] => .error "Cannot determine true orient."
    | s0 :: rest =>
      let masked := s0 :: rest
      let tt := masked.count true
      let ff := masked.count false
      let true_orient := if ff < tt then true else if tt < ff then false else s0
      let mask_true_orient :=
        List.zipWith (fun s m => m && s == true_orient) (signsOf rows) (maskOf rows)
      let kept := ((id_comb.zip rpos_comb).zip mask_true_orient).filterMap
        (fun cm => if cm.2 then some cm.1 else none)
      let uniqPos (a b : Int) : List Int := dedupFirst
        ((kept.filter (fun r => r.1.1 = a ∧ r.1.2 = b)).flatMap (fun r => [r.2.1, r.2.2]))
      let is_multi (a b : Int) : Bool := decide (2 < (uniqPos a b).length)
      let dedup := dedupByKey (fun r => (r.1.1, r.1.2, is_multi r.1.1 r.1.2)) kept
      let nodes := dedupFirst (dedup.map (fun r => r.1.1) ++ dedup.map (fun r => r.1.2))
      let comps := connectedComponents nodes (dedup.map (fun r => (r.1.1, r.1.2)))
      .ok (match comps with
        | [] => none
        | c0 :: ct =>
          some (ct.foldl (fun best c => if best.length ≤ c.length then c else best) c0))

/-- Last index of a value in a list; models collecting (id, add_node(id))
pairs into a HashMap, where a later insertion for the same id wins. -/
def lastIndexOf [DecidableEq α] (l : List α) (v : α) : Option Nat :=
  ((l.enum.filter (fun iv => iv.2 = v)).map (fun iv => iv.1)).getLast?

/-- Group consecutive equal keys (itertools chunk_by). -/
def chunkByKey [DecidableEq κ] (key : α → κ) : List α → List (κ × List α)
  | [] => []
  | a :: t =>
    match chunkByKey key t with
    | [] => [(key a, [a])]
    | (k, g) :: rest =>
      if k = key a then (key a, a :: g) :: rest else (key a, [a]) :: (k, g) :: rest

/-- The per-read id pair rows of get_contig_sunk_graph_components: chunk the
(read, id) rows by read and enumerate all combinations(2) of each read's
ids. -/
def contigPairRows (rnames : List String) (ids : List Int) : List (Int × Int) :=
  (chunkByKey (fun ri => ri.1) (rnames.zip ids)).flatMap
    (fun kg => pairs (kg.2.map (fun ri => ri.2)))

/-- Edges of the contig graph in node-index space.  One node is added per
entry of ids (duplicate ids give extra orphan nodes); each edge attaches to
the last-inserted node of its id value, as the HashMap of node indices
records.  The none case of the lookups cannot arise (pair members are drawn
from ids); the source marks it unreachable. -/
def contigEdges (rnames : List String) (ids : List Int) : List (Nat × Nat) :=
  (contigPairRows rnames ids).filterMap (fun ab =>
    match lastIndexOf ids ab.1, lastIndexOf ids ab.2 with
    | some i, some j => some (i, j)
    | _, _ => none)

/-- i64::MAX, the sentinel of the component min fold. -/
def i64Max : Int := 2 ^ 63 - 1

/-- A BED output row (ctg, st, end, sunks); end is spelled bedEnd because end
is a keyword in Lean. -/
structure BedRow where
  ctg : String
  st : Int
  bedEnd : Int
  sunks : Nat
deriving DecidableEq, Repr

/-- get_contig_sunk_graph_components (src/sunk_graph.rs:13-61): build the
multi-read graph over one node per ids entry, find connected components, and
for each component of size > 2 emit (ctg, min weight, max weight, size),
with the min fold seeded by i64::MAX and the max fold seeded by 0. -/
def get_contig_sunk_graph_components (ctg : String) (rnames : List String)
    (ids : List Int) : List BedRow :=
  ((connectedComponents (List.range ids.length) (contigEdges rnames ids)).map
      (fun comp => comp.map (fun i => ids.getD i 0))).filterMap
    (fun w =>
      if 2 < w.length then some ⟨ctg, w.foldl min i64Max, w.foldl max 0, w.length⟩
      else none)

/-- Comparator of the sort by (read, rpos) on graph rows. -/
def readRposLeG (a b : GraphRow) : Bool :=
  strLt a.read b.read || (a.read = b.read && a.rpos ≤ b.rpos)

/-- Comparator of the sort by (cpos, rpos) on graph rows. -/
def cposRposLeG (a b : GraphRow) : Bool :=
  decide (a.cpos < b.cpos) || (a.cpos = b.cpos && a.rpos ≤ b.rpos)

/-- The pre-filter pipeline of create_sunk_graph (src/sunk_graph.rs:278-325):
drop rows whose composite id is in the bad-SUNK table (left join then filter
count is_null); keep reads with more than one distinct group id (the
lf_multisunk semi join); sort by (read, rpos) and deduplicate identical rows
keeping the first; keep reads of length > 10000 (rows with no length entry
get a null that the filter drops); and sort by (cpos, rpos). -/
def sunkGraphPrefilter (rows : List GraphRow) (read_lens : List (String × Int))
    (df_bad_sunks : List (String × Int)) : List GraphRow :=
  let good := rows.filter (fun r =>
    (df_bad_sunks.find? (fun b => b.1 = sunkId r.ctg r.group)).isNone)
  let multi := good.filter (fun r =>
    1 < (dedupFirst ((good.filter (fun b => b.read = r.read)).map (fun b => b.group))).length)
  let uniq := dedupByKey (fun r => r) (sortOn readRposLeG multi)
  let lenOk := uniq.filter (fun r =>
    match read_lens.find? (fun nl => nl.1 = r.read) with
    | some nl => decide (10000 < nl.2)
    | none => false)
  sortOn cposRposLeG lenOk

/-- The per-read partitions of create_sunk_graph (partition_by read after the
pre-filter); each block keeps the (cpos, rpos)-sorted row order of its
read. -/
def sunkGraphPartitions (rows : List GraphRow) (read_lens : List (String × Int))
    (df_bad_sunks : List (String × Int)) : List (String × List GraphRow) :=
  groupByKey (fun r => r.read) (sunkGraphPrefilter rows read_lens df_bad_sunks)

/-- The flat_map over partitions of create_sunk_graph: every per-read call is
unwrapped (an error is a panic, modelled as none), reads yielding no
component are skipped, the others contribute (read, ids). -/
def collectComponents : List (String × List GraphRow) → Option (List (String × List Int))
  | [] => some []
  | p :: t =>
    match get_read_largest_sunk_graph_component p.2 with
    | .error _ => none
    | .ok none => collectComponents t
    | .ok (some ids) => (collectComponents t).map (fun l => (p.1, ids) :: l)

/-- create_sunk_graph (src/sunk_graph.rs:272-358).  The reduce over the
surviving reads is unwrapped, so when no read contributes the function
panics; both panic paths are modelled as none. -/
def create_sunk_graph (ctg : String) (df_read_sunks : List GraphRow)
    (read_lens : List (String × Int)) (df_bad_sunks : List (String × Int)) :
    Option (List (String × Int) × List BedRow) :=
  match collectComponents (sunkGraphPartitions df_read_sunks read_lens df_bad_sunks) with
  | none => none
  | some [] => none
  | some (c :: cs) =>
    let rnames := (c :: cs).flatMap (fun ri => ri.2.map (fun _ => ri.1))
    let ids := (c :: cs).flatMap (fun ri => ri.2)
    some (rnames.zip ids, get_contig_sunk_graph_components ctg rnames ids)

/-- The concrete create_sunk_graph input for claim C3: one read of length
20000 on contig c whose two SUNK pairs are far out of band (rpos distance
100 against cpos distance 4900), so the read is skipped and no read
survives. -/
def rowsC3 : List GraphRow :=
  [⟨"r", 100, "c", 100, 1⟩, ⟨"r", 200, "c", 5000, 2⟩]

def lensC3 : List (String × Int) := [("r", 20000)]

/-! ## General lemmas about the list utilities -/

theorem mem_dedupFirst [DecidableEq κ] {a : κ} :
    ∀ {l : List κ}, a ∈ dedupFirst l ↔ a ∈ l := by
  intro l
  induction l with
  | nil => simp [dedupFirst]
  | cons b t ih =>
    simp only [dedupFirst, List.mem_cons, List.mem_filter]
    constructor
    · rintro (rfl | ⟨h1, _⟩)
      · exact .inl rfl
      · exact .inr (ih.mp h1)
    · rintro (rfl | h)
      · exact .inl rfl
      · by_cases hab : a = b
        · exact .inl hab
        · exact .inr ⟨ih.mpr h, by simpa using hab⟩

theorem nodup_dedupFirst [DecidableEq κ] : ∀ (l : List κ), (dedupFirst l).Nodup := by
  intro l
  induction l with
  | nil => simp [dedupFirst]
  | cons b t ih =>
    simp only [dedupFirst, List.nodup_cons]
    refine ⟨?_, ih.filter _⟩
    intro hmem
    have h2 := (List.mem_filter.mp hmem).2
    simp at h2

theorem mem_groupByKey [DecidableEq κ] {key : α → κ} {l : List α} {kg : κ × List α}
    (h : kg ∈ groupByKey key l) :
    kg.1 ∈ l.map key ∧ kg.2 = l.filter (fun b => key b = kg.1) := by
  simp only [groupByKey, List.mem_map] at h
  obtain ⟨k, hk, rfl⟩ := h
  exact ⟨mem_dedupFirst.mp hk, rfl⟩

theorem groupByKey_keys_nodup [DecidableEq κ] (key : α → κ) (l : List α) :
    List.Pairwise (fun kg1 kg2 : κ × List α => kg1.1 ≠ kg2.1) (groupByKey key l) := by
  unfold groupByKey
  refine List.Pairwise.map _ ?_ (nodup_dedupFirst (l.map key))
  intro a b hab
  simpa using hab

theorem groupByKey_mem_of_key [DecidableEq κ] {key : α → κ} {l : List α} {k : κ}
    (h : k ∈ l.map key) :
    (k, l.filter (fun b => key b = k)) ∈ groupByKey key l := by
  simp only [groupByKey, List.mem_map]
  exact ⟨k, mem_dedupFirst.mpr h, rfl⟩

theorem insertSorted_perm (le : α → α → Bool) (a : α) :
    ∀ (l : List α), (insertSorted le a l).Perm (a :: l) := by
  intro l
  induction l with
  | nil => simp [insertSorted]
  | cons b t ih =>
    simp only [insertSorted]
    by_cases h : le a b
    · simp [h]
    · simp only [h, Bool.false_eq_true, if_false]
      exact (ih.cons b).trans (List.Perm.swap a b t)

theorem sortOn_perm (le : α → α → Bool) : ∀ (l : List α), (sortOn le l).Perm l := by
  intro l
  induction l with
  | nil => simp [sortOn]
  | cons b t ih =>
    simpa [sortOn] using (insertSorted_perm le b (sortOn le t)).trans (ih.cons b)

theorem mem_sortOn (le : α → α → Bool) (l : List α) (x : α) :
    x ∈ sortOn le l ↔ x ∈ l := (sortOn_perm le l).mem_iff

theorem insertSorted_pairwise (le : α → α → Bool)
    (htot : ∀ a b, le a b = true ∨ le b a = true)
    (htrans : ∀ a b c, le a b = true → le b c = true → le a c = true)
    (a : α) : ∀ (l : List α), List.Pairwise (fun x y => le x y = true) l →
      List.Pairwise (fun x y => le x y = true) (insertSorted le a l) := by
  intro l
  induction l with
  | nil => intro _; simp [insertSorted]
  | cons b t ih =>
    intro h
    have hb := List.pairwise_cons.mp h
    simp only [insertSorted]
    by_cases hab : le a b = true
    · rw [if_pos hab]
      refine List.pairwise_cons.mpr ⟨?_, h⟩
      intro x hx
      rcases List.mem_cons.mp hx with hxb | hxt
      · rw [hxb]; exact hab
      · exact htrans a b x hab (hb.1 x hxt)
    · rw [if_neg hab]
      refine List.pairwise_cons.mpr ⟨?_, ih hb.2⟩
      intro x hx
      have hx2 := (insertSorted_perm le a t).mem_iff.mp hx
      rcases List.mem_cons.mp hx2 with hxa | hxt
      · rw [hxa]
        rcases htot a b with h1 | h1
        · exact absurd h1 hab
        · exact h1
      · exact hb.1 x hxt

theorem sortOn_pairwise (le : α → α → Bool)
    (htot : ∀ a b, le a b = true ∨ le b a = true)
    (htrans : ∀ a b c, le a b = true → le b c = true → le a c = true) :
    ∀ (l : List α), List.Pairwise (fun x y => le x y = true) (sortOn le l) := by
  intro l
  induction l with
  | nil => simp [sortOn]
  | cons b t ih => exact insertSorted_pairwise le htot htrans b _ ih

theorem foldl_min_spec : ∀ (l : List Int) (s : Int),
    l.foldl min s ∈ s :: l ∧ ∀ x ∈ s :: l, l.foldl min s ≤ x := by
  intro l
  induction l with
  | nil =>
    intro s
    refine ⟨by simp, ?_⟩
    intro x hx
    rw [List.mem_singleton.mp hx]
    simp
  | cons a t ih =>
    intro s
    obtain ⟨hmem, hle⟩ := ih (min s a)
    have hstep : (a :: t).foldl min s = t.foldl min (min s a) := by simp
    constructor
    · rw [hstep]
      rcases List.mem_cons.mp hmem with h | h
      · rcases min_choice s a with h2 | h2
        · rw [h, h2]; exact List.mem_cons_self _ _
        · rw [h, h2]; exact List.mem_cons.mpr (.inr (List.mem_cons_self _ _))
      · exact List.mem_cons.mpr (.inr (List.mem_cons.mpr (.inr h)))
    · intro x hx
      rw [hstep]
      rcases List.mem_cons.mp hx with h | h2
      · rw [h]
        exact le_trans (hle _ (List.mem_cons_self _ _)) (min_le_left s a)
      · rcases List.mem_cons.mp h2 with h | h
        · rw [h]
          exact le_trans (hle _ (List.mem_cons_self _ _)) (min_le_right s a)
        · exact hle x (List.mem_cons.mpr (.inr h))

theorem foldl_max_spec : ∀ (l : List Int) (s : Int),
    l.foldl max s ∈ s :: l ∧ ∀ x ∈ s :: l, x ≤ l.foldl max s := by
  intro l
  induction l with
  | nil =>
    intro s
    refine ⟨by simp, ?_⟩
    intro x hx
    rw [List.mem_singleton.mp hx]
    simp
  | cons a t ih =>
    intro s
    obtain ⟨hmem, hle⟩ := ih (max s a)
    have hstep : (a :: t).foldl max s = t.foldl max (max s a) := by simp
    constructor
    · rw [hstep]
      rcases List.mem_cons.mp hmem with h | h
      · rcases max_choice s a with h2 | h2
        · rw [h, h2]; exact List.mem_cons_self _ _
        · rw [h, h2]; exact List.mem_cons.mpr (.inr (List.mem_cons_self _ _))
      · exact List.mem_cons.mpr (.inr (List.mem_cons.mpr (.inr h)))
    · intro x hx
      rw [hstep]
      rcases List.mem_cons.mp hx with h | h2
      · rw [h]
        exact le_trans (le_max_left s a) (hle _ (List.mem_cons_self _ _))
      · rcases List.mem_cons.mp h2 with h | h
        · rw [h]
          exact le_trans (le_max_right s a) (hle _ (List.mem_cons_self _ _))
        · exact hle x (List.mem_cons.mpr (.inr h))

theorem foldl_min_mem_of_bounded {l : List Int} {s : Int} (hne : l ≠ [])
    (hb : ∀ x ∈ l, x ≤ s) : l.foldl min s ∈ l ∧ ∀ x ∈ l, l.foldl min s ≤ x := by
  obtain ⟨hmem, hle⟩ := foldl_min_spec l s
  refine ⟨?_, fun x hx => hle x (by simp [hx])⟩
  rcases List.mem_cons.mp hmem with h | h
  · obtain ⟨x0, hx0⟩ := List.exists_mem_of_ne_nil l hne
    have h1 : l.foldl min s ≤ x0 := hle x0 (by simp [hx0])
    have h2 : x0 ≤ s := hb x0 hx0
    have : l.foldl min s = x0 := le_antisymm h1 (by rw [h]; exact h2)
    rw [this]; exact hx0
  · exact h

theorem foldl_max_mem_of_bounded {l : List Int} {s : Int} (hne : l ≠ [])
    (hb : ∀ x ∈ l, s ≤ x) : l.foldl max s ∈ l ∧ ∀ x ∈ l, x ≤ l.foldl max s := by
  obtain ⟨hmem, hle⟩ := foldl_max_spec l s
  refine ⟨?_, fun x hx => hle x (by simp [hx])⟩
  rcases List.mem_cons.mp hmem with h | h
  · obtain ⟨x0, hx0⟩ := List.exists_mem_of_ne_nil l hne
    have h1 : x0 ≤ l.foldl max s := hle x0 (by simp [hx0])
    have h2 : s ≤ x0 := hb x0 hx0
    have : l.foldl max s = x0 := le_antisymm (by rw [h]; exact h2) h1
    rw [this]; exact hx0
  · exact h

/-! ## Lemmas about the sunk graph stage -/

theorem pairs_length_eq : ∀ (l1 : List α) (l2 : List β), l1.length = l2.length →
    (pairs l1).length = (pairs l2).length := by
  intro l1
  induction l1 with
  | nil =>
    intro l2 h
    cases l2 with
    | nil => rfl
    | cons b t => simp at h
  | cons a t ih =>
    intro l2 h
    cases l2 with
    | nil => simp at h
    | cons b t2 =>
      simp only [pairs, List.length_append, List.length_map]
      simp only [List.length_cons] at h
      have h2 : t.length = t2.length := by omega
      rw [ih t2 h2, h2]

theorem filterMap_zip_ne_nil : ∀ (s m : List Bool), s.length = m.length →
    1 ≤ m.count true →
    (s.zip m).filterMap (fun sm => if sm.2 then some sm.1 else none) ≠ [] := by
  intro s
  induction s with
  | nil =>
    intro m hlen hcount
    cases m with
    | nil => simp at hcount
    | cons b t => simp at hlen
  | cons a t ih =>
    intro m hlen hcount
    cases m with
    | nil => simp at hcount
    | cons b t2 =>
      cases b with
      | true => simp [List.zip_cons_cons]
      | false =>
        simp only [List.zip_cons_cons, List.filterMap_cons, Bool.false_eq_true, if_false]
        refine ih t2 (by simpa using hlen) ?_
        simpa using hcount

theorem maskOf_length (rows : List GraphRow) :
    (maskOf rows).length = (signsOf rows).length := by
  have h := pairs_length_eq (rows.map (fun r => r.rpos)) (rows.map (fun r => r.cpos))
    (by simp)
  simp only [maskOf, signsOf, pairsDst, List.length_zipWith, List.length_map]
  omega

theorem maskedSigns_ne_nil {rows : List GraphRow}
    (h : 1 ≤ (maskOf rows).count true) : maskedSigns rows ≠ [] :=
  filterMap_zip_ne_nil (signsOf rows) (maskOf rows) (maskOf_length rows).symm h

/-- The per-read extractor never returns an error: the bail is only reachable
when the in-band mask is empty, but the earlier sum guard already returned
None in that case. -/
theorem largest_component_no_error (rows : List GraphRow) :
    ∃ o, get_read_largest_sunk_graph_component rows = Except.ok o := by
  unfold get_read_largest_sunk_graph_component
  by_cases hc : (maskOf rows).count true < 1
  · rw [if_pos hc]; exact ⟨none, rfl⟩
  · rw [if_neg hc]
    cases hm : maskedSigns rows with
    | nil => exact absurd hm (maskedSigns_ne_nil (by omega))
    | cons s0 rest => exact ⟨_, rfl⟩

theorem collect_ne_none : ∀ (parts : List (String × List GraphRow)),
    collectComponents parts ≠ none := by
  intro parts
  induction parts with
  | nil => simp [collectComponents]
  | cons p t ih =>
    simp only [collectComponents]
    obtain ⟨o, ho⟩ := largest_component_no_error p.2
    rw [ho]
    cases o with
    | none => exact ih
    | some ids =>
      cases h : collectComponents t with
      | none => exact absurd h ih
      | some l => simp

theorem collect_nil_iff : ∀ (parts : List (String × List GraphRow)),
    collectComponents parts = some [] ↔
      ∀ p ∈ parts, get_read_largest_sunk_graph_component p.2 = Except.ok none := by
  intro parts
  induction parts with
  | nil => simp [collectComponents]
  | cons p t ih =>
    simp only [collectComponents]
    cases hp : get_read_largest_sunk_graph_component p.2 with
    | error e =>
      constructor
      · intro h; exact absurd h (by simp)
      · intro h
        have h2 := h p (List.mem_cons_self _ _)
        rw [hp] at h2
        exact absurd h2 (by simp)
    | ok o =>
      cases o with
      | none =>
        rw [ih]
        constructor
        · intro h q hq
          rcases List.mem_cons.mp hq with h2 | h2
          · rw [h2]; exact hp
          · exact h q h2
        · intro h q hq
          exact h q (List.mem_cons.mpr (.inr hq))
      | some ids =>
        constructor
        · intro h
          cases hc : collectComponents t with
          | none => rw [hc] at h; exact absurd h (by simp)
          | some l => rw [hc] at h; simp at h
        · intro h
          have h2 := h p (List.mem_cons_self _ _)
          rw [hp] at h2
          simp at h2

/-! ## Comparator and list lemmas for the mapper -/

theorem flatMap_const_nil (l : List α) : l.flatMap (fun _ => ([] : List β)) = [] := by
  induction l with
  | nil => rfl
  | cons a t ih => simp [ih]

theorem flatMap_singleton_map (l : List α) (f : α → β) :
    l.flatMap (fun x => [f x]) = l.map f := by
  induction l with
  | nil => rfl
  | cons a t ih => simp [ih]

theorem pairwise_trivial {R : α → α → Prop} (h : ∀ a b, R a b) :
    ∀ l : List α, List.Pairwise R l := by
  intro l
  induction l with
  | nil => exact .nil
  | cons a t ih => exact .cons (fun b _ => h a b) ih

theorem filter_eq_singleton_of_nodup_map [DecidableEq β] {f : α → β} :
    ∀ {l : List α}, (l.map f).Nodup → ∀ {s : α}, s ∈ l →
      l.filter (fun x => f x = f s) = [s] := by
  intro l
  induction l with
  | nil => intro _ s hs; cases hs
  | cons a t ih =>
    intro h s hs
    rw [List.map_cons, List.nodup_cons] at h
    rcases List.mem_cons.mp hs with h1 | h1
    · subst h1
      rw [List.filter_cons_of_pos (by simp)]
      rw [List.filter_eq_nil_iff.mpr ?_]
      intro x hx
      simp only [decide_eq_true_eq]
      intro he
      exact h.1 (he ▸ List.mem_map_of_mem f hx)
    · have hfa : ¬ (f a = f s) := by
        intro he
        exact h.1 (he ▸ List.mem_map_of_mem f h1)
      rw [List.filter_cons_of_neg (by simpa using hfa)]
      exact ih h.2 h1

theorem strLt_iff (a b : String) : strLt a b = true ↔ a.data < b.data := by
  simp [strLt]

theorem strLt_trans {a b c : String} (h1 : strLt a b = true) (h2 : strLt b c = true) :
    strLt a c = true := by
  rw [strLt_iff] at h1 h2 ⊢
  exact lt_trans h1 h2

theorem strLt_total (a b : String) : strLt a b = true ∨ a = b ∨ strLt b a = true := by
  rcases lt_trichotomy a.data b.data with h | h | h
  · exact .inl ((strLt_iff a b).mpr h)
  · refine .inr (.inl ?_)
    cases a
    cases b
    exact congrArg String.mk h
  · exact .inr (.inr ((strLt_iff b a).mpr h))

theorem readRposLe_total (a b : ReadSunkRow) :
    readRposLe a b = true ∨ readRposLe b a = true := by
  unfold readRposLe
  rcases strLt_total a.read b.read with h | h | h
  · left; simp [h]
  · rcases Nat.le_total a.rpos b.rpos with h2 | h2
    · left; simp [h, h2]
    · right; simp [h, h2]
  · right; simp [h]

theorem readRposLe_trans {a b c : ReadSunkRow} (h1 : readRposLe a b = true)
    (h2 : readRposLe b c = true) : readRposLe a c = true := by
  unfold readRposLe at h1 h2 ⊢
  simp only [Bool.or_eq_true, Bool.and_eq_true, decide_eq_true_eq] at h1 h2 ⊢
  rcases h1 with h1 | ⟨h1e, h1r⟩
  · rcases h2 with h2 | ⟨h2e, h2r⟩
    · exact .inl (strLt_trans h1 h2)
    · left; rw [← h2e]; exact h1
  · rcases h2 with h2 | ⟨h2e, h2r⟩
    · left; rw [h1e]; exact h2
    · exact .inr ⟨h1e.trans h2e, le_trans h1r h2r⟩

theorem cposFirstLe_total (a b : ReadSunkRow) :
    cposFirstLe a b = true ∨ cposFirstLe b a = true := by
  unfold cposFirstLe
  rcases Nat.le_total a.cpos b.cpos with h | h
  · left; simpa using h
  · right; simpa using h

theorem cposFirstLe_trans {a b c : ReadSunkRow} (h1 : cposFirstLe a b = true)
    (h2 : cposFirstLe b c = true) : cposFirstLe a c = true := by
  unfold cposFirstLe at h1 h2 ⊢
  simp only [decide_eq_true_eq] at h1 h2 ⊢
  exact le_trans h1 h2

/-- The joined occurrence rows in canonical form: with a nonempty SUNK table
of pairwise distinct k-mers, each mapped row joins back exactly its own SUNK
row, so the join is read-major, then SUNK-table-major, then position-major. -/
theorem joinedRows_canonical (reads : List (String × List Base)) (s0 : SunkRow)
    (tl : List SunkRow) (hkmers : ((s0 :: tl).map (fun s => s.kmer)).Nodup) :
    joinedRows reads (s0 :: tl) = reads.flatMap (fun rs =>
      (s0 :: tl).flatMap (fun s =>
        (findPositions s0.kmer.length rs.2 s.kmer).map
          (fun p => ⟨rs.1, p + 1, s.ctg, s.cpos, s.group⟩))) := by
  unfold joinedRows joinOnKmer mappedRows
  rw [List.flatMap_assoc]
  apply List.flatMap_congr
  intro rs _
  show ((((s0 :: tl).map (fun s => s.kmer)).flatMap (fun sunk =>
      (findPositions s0.kmer.length rs.2 sunk).map (fun p => (rs.1, sunk, p + 1)))).flatMap
        (fun rkp => ((s0 :: tl).filter (fun s => s.kmer = rkp.2.1)).map
          (fun s => (⟨rkp.1, rkp.2.2, s.ctg, s.cpos, s.group⟩ : ReadSunkRow)))) =
    (s0 :: tl).flatMap (fun s =>
      (findPositions s0.kmer.length rs.2 s.kmer).map
        (fun p => (⟨rs.1, p + 1, s.ctg, s.cpos, s.group⟩ : ReadSunkRow)))
  rw [List.flatMap_map, List.flatMap_assoc]
  apply List.flatMap_congr
  intro s hs
  rw [List.flatMap_map]
  have hfix : ∀ p : Nat,
      ((s0 :: tl).filter (fun s2 => s2.kmer = s.kmer)).map
        (fun s2 => (⟨rs.1, p + 1, s2.ctg, s2.cpos, s2.group⟩ : ReadSunkRow)) =
      [(⟨rs.1, p + 1, s.ctg, s.cpos, s.group⟩ : ReadSunkRow)] := by
    intro p
    rw [filter_eq_singleton_of_nodup_map hkmers hs]
    rfl
  calc (findPositions s0.kmer.length rs.2 s.kmer).flatMap
        (fun p => ((s0 :: tl).filter (fun s2 => s2.kmer = s.kmer)).map
          (fun s2 => (⟨rs.1, p + 1, s2.ctg, s2.cpos, s2.group⟩ : ReadSunkRow)))
      = (findPositions s0.kmer.length rs.2 s.kmer).flatMap
          (fun p => [(⟨rs.1, p + 1, s.ctg, s.cpos, s.group⟩ : ReadSunkRow)]) := by
        apply List.flatMap_congr
        intro p _
        exact hfix p
    _ = (findPositions s0.kmer.length rs.2 s.kmer).map
          (fun p => (⟨rs.1, p + 1, s.ctg, s.cpos, s.group⟩ : ReadSunkRow)) := by
        rw [flatMap_singleton_map]

/-- Order invariant of the joined rows: two occurrence rows of the same
(read, ctg, group), in emission order, have nondecreasing cpos — the mapped
rows enumerate the SUNK table in its own (ctg, cpos)-sorted order within
each read. -/
theorem joined_pairwise (reads : List (String × List Base)) (df_sunks : List SunkRow)
    (hnames : (reads.map Prod.fst).Nodup)
    (hkmers : (df_sunks.map (fun s => s.kmer)).Nodup)
    (hsorted : List.Pairwise (fun a b => a.ctg = b.ctg → a.cpos ≤ b.cpos) df_sunks) :
    List.Pairwise (fun a b : ReadSunkRow =>
      (a.read = b.read ∧ a.ctg = b.ctg ∧ a.group = b.group) → a.cpos ≤ b.cpos)
      (joinedRows reads df_sunks) := by
  cases df_sunks with
  | nil =>
    have h0 : joinedRows reads [] = [] := by
      show (reads.flatMap (fun _ => [])).flatMap _ = []
      rw [flatMap_const_nil]
      rfl
    rw [h0]
    exact .nil
  | cons s0 tl =>
    rw [joinedRows_canonical reads s0 tl hkmers]
    rw [List.pairwise_flatMap]
    constructor
    · intro rs _
      rw [List.pairwise_flatMap]
      constructor
      · intro s _
        rw [List.pairwise_map]
        apply pairwise_trivial
        intro p q _
        exact le_refl _
      · refine List.Pairwise.imp ?_ hsorted
        intro s1 s2 hct x hx y hy hand
        rw [List.mem_map] at hx hy
        obtain ⟨p, _, rfl⟩ := hx
        obtain ⟨q, _, rfl⟩ := hy
        exact hct hand.2.1
    · have hnames2 : List.Pairwise (fun r1 r2 : String × List Base => r1.1 ≠ r2.1) reads :=
        List.pairwise_map.mp hnames
      refine List.Pairwise.imp ?_ hnames2
      intro rs1 rs2 hne x hx y hy hand
      exfalso
      rw [List.mem_flatMap] at hx hy
      obtain ⟨sx, _, hx⟩ := hx
      obtain ⟨sy, _, hy⟩ := hy
      rw [List.mem_map] at hx hy
      obtain ⟨p, _, rfl⟩ := hx
      obtain ⟨q, _, rfl⟩ := hy
      exact hne hand.1

/-- C5: in the output of map_sunks_to_reads, at most one row exists per
(read, ctg, group); its cpos is the minimum cpos among the group's joined
occurrences in the read, its rpos is the rpos of an occurrence attaining
that minimum, and the result is sorted by (read, rpos).  The hypotheses are
the pipeline's invariants on the SUNK table it is fed: distinct read names
(from the FASTA index), distinct SUNK k-mers (SUNKs are unique), and rows
sorted by (ctg, cpos) (get_sunk_positions sorts before writing). -/
theorem C5_dedup_anchor_sorted (reads : List (String × List Base))
    (df_sunks : List SunkRow) (out : List ReadSunkRow)
    (hnames : (reads.map Prod.fst).Nodup)
    (hkmers : (df_sunks.map (fun s => s.kmer)).Nodup)
    (hsorted : List.Pairwise (fun a b => a.ctg = b.ctg → a.cpos ≤ b.cpos) df_sunks)
    (hout : map_sunks_to_reads reads df_sunks = some out) :
    List.Pairwise (fun a b =>
      ¬ (a.read = b.read ∧ a.ctg = b.ctg ∧ a.group = b.group)) out ∧
    (∀ row ∈ out,
      (∀ o ∈ (joinedRows reads df_sunks).filter
          (fun o => o.read = row.read ∧ o.ctg = row.ctg ∧ o.group = row.group),
        row.cpos ≤ o.cpos) ∧
      (∃ o ∈ (joinedRows reads df_sunks).filter
          (fun o => o.read = row.read ∧ o.ctg = row.ctg ∧ o.group = row.group),
        o.cpos = row.cpos ∧ o.rpos = row.rpos)) ∧
    List.Pairwise (fun a b => readRposLe a b = true) out := by
  unfold map_sunks_to_reads at hout
  by_cases hcond : reads ≠ [] ∧ df_sunks.map (fun s => s.kmer) = []
  · rw [if_pos hcond] at hout
    exact absurd hout (by simp)
  · rw [if_neg hcond] at hout
    have hout2 : sortOn readRposLe (aggGroups (joinedRows reads df_sunks)) = out :=
      Option.some.inj hout
    subst hout2
    have hpw := joined_pairwise reads df_sunks hnames hkmers hsorted
    refine ⟨?_, ?_, ?_⟩
    · have h1 : List.Pairwise (fun a b : ReadSunkRow =>
          ¬ (a.read = b.read ∧ a.ctg = b.ctg ∧ a.group = b.group))
          (aggGroups (joinedRows reads df_sunks)) := by
        unfold aggGroups
        refine List.Pairwise.map _ ?_
          (groupByKey_keys_nodup (fun r : ReadSunkRow => (r.read, r.ctg, r.group))
            (joinedRows reads df_sunks))
        intro kg1 kg2 hne hand
        obtain ⟨h1, h2, h3⟩ := hand
        exact hne (Prod.ext h1 (Prod.ext h2 h3))
      refine (List.Perm.pairwise_iff ?_ (sortOn_perm readRposLe _)).mpr h1
      intro a b hab hand
      exact hab ⟨hand.1.symm, hand.2.1.symm, hand.2.2.symm⟩
    · intro row hrow
      rw [mem_sortOn] at hrow
      unfold aggGroups at hrow
      rw [List.mem_map] at hrow
      obtain ⟨kg, hkg, hrowe⟩ := hrow
      obtain ⟨hkmem, hkfil⟩ := mem_groupByKey hkg
      rw [List.mem_map] at hkmem
      obtain ⟨j0, hj0J, hj0key⟩ := hkmem
      have hj0g : j0 ∈ kg.2 := by
        rw [hkfil, List.mem_filter]
        exact ⟨hj0J, decide_eq_true hj0key⟩
      have hocc : (joinedRows reads df_sunks).filter
          (fun o => o.read = row.read ∧ o.ctg = row.ctg ∧ o.group = row.group) = kg.2 := by
        rw [hkfil]
        apply List.filter_congr
        intro o _
        rw [← hrowe]
        show decide (o.read = kg.1.1 ∧ o.ctg = kg.1.2.1 ∧ o.group = kg.1.2.2) =
          decide ((o.read, o.ctg, o.group) = kg.1)
        rw [decide_eq_decide]
        simp [Prod.ext_iff]
      have hgp : List.Pairwise (fun a b : ReadSunkRow =>
          (a.read = b.read ∧ a.ctg = b.ctg ∧ a.group = b.group) → a.cpos ≤ b.cpos)
          kg.2 := by
        rw [hkfil]
        exact hpw.filter _
      have hcple : List.Pairwise (fun a b : ReadSunkRow => a.cpos ≤ b.cpos) kg.2 := by
        refine List.Pairwise.imp_of_mem ?_ hgp
        intro a b ha hb himp
        rw [hkfil, List.mem_filter] at ha hb
        have hka := of_decide_eq_true ha.2
        have hkb := of_decide_eq_true hb.2
        have he : (a.read, a.ctg, a.group) = (b.read, b.ctg, b.group) := hka.trans hkb.symm
        exact himp ⟨congrArg (fun x : String × String × Nat => x.1) he,
          congrArg (fun x : String × String × Nat => x.2.1) he,
          congrArg (fun x : String × String × Nat => x.2.2) he⟩
      cases hkg2 : kg.2 with
      | nil => rw [hkg2] at hj0g; cases hj0g
      | cons g0 gt =>
        have hrcpos : row.cpos = g0.cpos := by
          rw [← hrowe]
          show (kg.2.map (fun r => r.cpos)).headD 0 = g0.cpos
          rw [hkg2]
          rfl
        have hcple2 := hkg2 ▸ hcple
        constructor
        · intro o ho
          rw [hocc, hkg2] at ho
          rcases List.mem_cons.mp ho with h | h
          · rw [hrcpos, h]
          · rw [hrcpos]
            exact (List.pairwise_cons.mp hcple2).1 o h
        · have hstperm := sortOn_perm cposFirstLe kg.2
          have hstpw := sortOn_pairwise cposFirstLe cposFirstLe_total
            (fun a b c h1 h2 => cposFirstLe_trans h1 h2) kg.2
          cases hst : sortOn cposFirstLe kg.2 with
          | nil =>
            rw [hst] at hstperm
            rw [hstperm.symm.eq_nil] at hkg2
            cases hkg2
          | cons t0 tt =>
            rw [hst] at hstperm hstpw
            have hrrpos : row.rpos = t0.rpos := by
              rw [← hrowe]
              show ((sortOn cposFirstLe kg.2).map (fun r => r.rpos)).headD 0 = t0.rpos
              rw [hst]
              rfl
            have ht0mem : t0 ∈ kg.2 := hstperm.mem_iff.mp (List.mem_cons_self _ _)
            have h1 : g0.cpos ≤ t0.cpos := by
              rcases List.mem_cons.mp (hkg2 ▸ ht0mem) with h | h
              · rw [h]
              · exact (List.pairwise_cons.mp hcple2).1 t0 h
            have h2 : t0.cpos ≤ g0.cpos := by
              have hg0st : g0 ∈ t0 :: tt :=
                hstperm.mem_iff.mpr (by rw [hkg2]; exact List.mem_cons_self _ _)
              rcases List.mem_cons.mp hg0st with h | h
              · rw [h]
              · have := (List.pairwise_cons.mp hstpw).1 g0 h
                unfold cposFirstLe at this
                exact of_decide_eq_true this
            refine ⟨t0, ?_, ?_, hrrpos.symm⟩
            · rw [hocc]
              exact ht0mem
            · rw [hrcpos]
              exact le_antisymm h2 h1
    · exact sortOn_pairwise readRposLe readRposLe_total
        (fun a b c h1 h2 => readRposLe_trans h1 h2) _

/-- C5 witness: one read ACTT and the two SUNK rows (c, 5, AC, 5) and
(c, 6, CT, 5) of one group; the kept row anchors at cpos 5. -/
theorem C5_dedup_anchor_sorted_witness :
    ((([("r1", [Base.A, Base.C, Base.T, Base.T])] : List (String × List Base)).map
        Prod.fst).Nodup) ∧
    (([⟨"c", 5, [Base.A, Base.C], 5⟩, ⟨"c", 6, [Base.C, Base.T], 5⟩] :
        List SunkRow).map (fun s => s.kmer)).Nodup ∧
    List.Pairwise (fun a b : SunkRow => a.ctg = b.ctg → a.cpos ≤ b.cpos)
      [⟨"c", 5, [Base.A, Base.C], 5⟩, ⟨"c", 6, [Base.C, Base.T], 5⟩] ∧
    ∃ out, map_sunks_to_reads [("r1", [Base.A, Base.C, Base.T, Base.T])]
        [⟨"c", 5, [Base.A, Base.C], 5⟩, ⟨"c", 6, [Base.C, Base.T], 5⟩] = some out ∧
      (List.Pairwise (fun a b : ReadSunkRow =>
        ¬ (a.read = b.read ∧ a.ctg = b.ctg ∧ a.group = b.group)) out ∧
      (∀ row ∈ out,
        (∀ o ∈ (joinedRows [("r1", [Base.A, Base.C, Base.T, Base.T])]
            [⟨"c", 5, [Base.A, Base.C], 5⟩, ⟨"c", 6, [Base.C, Base.T], 5⟩]).filter
            (fun o => o.read = row.read ∧ o.ctg = row.ctg ∧ o.group = row.group),
          row.cpos ≤ o.cpos) ∧
        (∃ o ∈ (joinedRows [("r1", [Base.A, Base.C, Base.T, Base.T])]
            [⟨"c", 5, [Base.A, Base.C], 5⟩, ⟨"c", 6, [Base.C, Base.T], 5⟩]).filter
            (fun o => o.read = row.read ∧ o.ctg = row.ctg ∧ o.group = row.group),
          o.cpos = row.cpos ∧ o.rpos = row.rpos)) ∧
      List.Pairwise (fun a b => readRposLe a b = true) out) := by
  refine ⟨by decide, by decide, by decide, ?_⟩
  refine ⟨map_sunks_to_reads [("r1", [Base.A, Base.C, Base.T, Base.T])]
      [⟨"c", 5, [Base.A, Base.C], 5⟩, ⟨"c", 6, [Base.C, Base.T], 5⟩] |>.getD [], rfl, ?_⟩
  exact C5_dedup_anchor_sorted _ _ _ (by decide) (by decide) (by decide) rfl

/-! ## Provenance lemmas for the SUNK extractor -/

theorem bump_entry_prop (Q : Kmer → Nat → Prop) :
    ∀ (m : KmerMap) (km : Kmer) (pos : Nat),
      (∀ e ∈ m, Q e.1 e.2.2) → Q km (pos + 1) →
      ∀ e ∈ bumpKmer km pos m, Q e.1 e.2.2 := by
  intro m
  induction m with
  | nil =>
    intro km pos _ hQ e he
    simp only [bumpKmer, List.mem_singleton] at he
    rw [he]
    exact hQ
  | cons e0 t ih =>
    intro km pos hm hQ e he
    simp only [bumpKmer] at he
    by_cases h0 : e0.1 = km
    · rw [if_pos h0] at he
      rcases List.mem_cons.mp he with h | h
      · rw [h]
        exact hm e0 (List.mem_cons_self _ _)
      · exact hm e (List.mem_cons.mpr (.inr h))
    · rw [if_neg h0] at he
      rcases List.mem_cons.mp he with h | h
      · rw [h]
        exact hm e0 (List.mem_cons_self _ _)
      · exact ih km pos (fun x hx => hm x (List.mem_cons.mpr (.inr hx))) hQ e h

theorem with_many_both_pos_mem {k : Nat} {seq : List Base} {w : Nat × Kmer × Kmer}
    (hw : w ∈ with_many_both_pos k seq) :
    w.1 + k ≤ seq.length ∧ w.2.1 = windowAt seq w.1 k ∧
      w.2.2 = rev_comp (windowAt seq w.1 k) := by
  simp only [with_many_both_pos, List.mem_map, List.mem_range] at hw
  obtain ⟨p, hp, rfl⟩ := hw
  exact ⟨by omega, rfl, rfl⟩

theorem get_kmer_counts_pos_prov (k : Nat) (seq : List Base) :
    ∀ e ∈ get_kmer_counts_pos k seq, ∃ p, e.2.2 = p + 1 ∧ p + k ≤ seq.length ∧
      (e.1 = windowAt seq p k ∨ e.1 = rev_comp (windowAt seq p k)) := by
  unfold get_kmer_counts_pos
  have aux : ∀ (ws : List (Nat × Kmer × Kmer)) (m : KmerMap),
      (∀ w ∈ ws, w ∈ with_many_both_pos k seq) →
      (∀ e ∈ m, ∃ p, e.2.2 = p + 1 ∧ p + k ≤ seq.length ∧
        (e.1 = windowAt seq p k ∨ e.1 = rev_comp (windowAt seq p k))) →
      ∀ e ∈ ws.foldl (fun m w => bumpKmer w.2.2 w.1 (bumpKmer w.2.1 w.1 m)) m,
        ∃ p, e.2.2 = p + 1 ∧ p + k ≤ seq.length ∧
          (e.1 = windowAt seq p k ∨ e.1 = rev_comp (windowAt seq p k)) := by
    intro ws
    induction ws with
    | nil => intro m _ hm e he; exact hm e he
    | cons w ws2 ih =>
      intro m hws hm e he
      simp only [List.foldl_cons] at he
      refine ih _ (fun x hx => hws x (List.mem_cons.mpr (.inr hx))) ?_ e he
      obtain ⟨hple, hx, hy⟩ := with_many_both_pos_mem (hws w (List.mem_cons_self _ _))
      refine bump_entry_prop
        (fun km2 pos2 => ∃ p, pos2 = p + 1 ∧ p + k ≤ seq.length ∧
          (km2 = windowAt seq p k ∨ km2 = rev_comp (windowAt seq p k))) _ _ _
        (bump_entry_prop
          (fun km2 pos2 => ∃ p, pos2 = p + 1 ∧ p + k ≤ seq.length ∧
            (km2 = windowAt seq p k ∨ km2 = rev_comp (windowAt seq p k))) _ _ _ hm ?_) ?_
      · exact ⟨w.1, rfl, hple, .inl hx⟩
      · exact ⟨w.1, rfl, hple, .inr hy⟩
  exact aux _ [] (fun w hw => hw) (by simp)

theorem mem_sunkRowsOf {maps2 : List (String × KmerMap)} {x : String × Nat × Kmer}
    (hx : x ∈ sunkRowsOf maps2) :
    ∃ nm ∈ maps2, ∃ e ∈ nm.2, x = (nm.1, e.2.2, e.1) := by
  unfold sunkRowsOf at hx
  rw [List.mem_flatMap] at hx
  obtain ⟨nm, hnm, hx⟩ := hx
  rw [List.mem_map] at hx
  obtain ⟨e, he, hxe⟩ := hx
  exact ⟨nm, hnm, e, he, hxe.symm⟩

theorem retained_entry {maps : List (String × KmerMap)} {nm2 : String × KmerMap}
    (h : nm2 ∈ retainSunks maps) :
    ∃ nm ∈ maps, nm2.1 = nm.1 ∧ ∀ e ∈ nm2.2, e ∈ nm.2 ∧ globalCount maps e.1 = 1 := by
  unfold retainSunks at h
  rw [List.mem_map] at h
  obtain ⟨nm, hnm, he⟩ := h
  refine ⟨nm, hnm, ?_, ?_⟩
  · rw [← he]
  · intro e he2
    rw [← he] at he2
    have h3 := List.mem_filter.mp he2
    exact ⟨h3.1, by simpa using h3.2⟩

theorem sunk_positions_prov_aux (fasta : List (String × List Base)) (k : Nat)
    (maps2 : List (String × KmerMap)) (row : SunkRow)
    (hmem : row ∈ (groupByKey (fun r : String × Nat × Kmer => r.1)
        (sortOn ctgCposLe (sunkRowsOf maps2))).flatMap (fun kg =>
          (kg.2.zip (blockGroups (kg.2.map (fun r => r.2.1)))).map
            (fun rg => ⟨rg.1.1, rg.1.2.1, rg.1.2.2, rg.2⟩)))
    (hsub : ∀ nm2 ∈ maps2, ∃ ns ∈ fasta, nm2.1 = ns.1 ∧
      ∀ e ∈ nm2.2, e ∈ get_kmer_counts_pos k ns.2 ∧
        globalCount (fasta.map (fun x => (x.1, get_kmer_counts_pos k x.2))) e.1 = 1) :
    ∃ ns ∈ fasta, ∃ e ∈ get_kmer_counts_pos k ns.2,
      row.ctg = ns.1 ∧ row.cpos = e.2.2 ∧ row.kmer = e.1 ∧
      globalCount (fasta.map (fun x => (x.1, get_kmer_counts_pos k x.2))) e.1 = 1 := by
  rw [List.mem_flatMap] at hmem
  obtain ⟨kg, hkg, hmem⟩ := hmem
  rw [List.mem_map] at hmem
  obtain ⟨rg, hrg, hrow⟩ := hmem
  have hr1 : rg.1 ∈ kg.2 := (List.of_mem_zip hrg).1
  rw [(mem_groupByKey hkg).2] at hr1
  have hr2 := (List.mem_filter.mp hr1).1
  rw [mem_sortOn] at hr2
  obtain ⟨nm2, hnm2, e, he, hre⟩ := mem_sunkRowsOf hr2
  obtain ⟨ns, hns, hname, hprops⟩ := hsub nm2 hnm2
  obtain ⟨hecounts, hecount1⟩ := hprops e he
  refine ⟨ns, hns, e, hecounts, ?_, ?_, ?_, hecount1⟩
  · rw [← hrow]
    show rg.1.1 = ns.1
    rw [hre, ← hname]
  · rw [← hrow]
    show rg.1.2.1 = e.2.2
    rw [hre]
  · rw [← hrow]
    show rg.1.2.2 = e.1
    rw [hre]

theorem sunk_positions_prov (fasta : List (String × List Base)) (k : Nat)
    (canonical : Bool) (row : SunkRow)
    (hrow : row ∈ get_sunk_positions fasta k canonical) :
    ∃ ns ∈ fasta, ∃ e ∈ get_kmer_counts_pos k ns.2,
      row.ctg = ns.1 ∧ row.cpos = e.2.2 ∧ row.kmer = e.1 ∧
      globalCount (fasta.map (fun x => (x.1, get_kmer_counts_pos k x.2))) e.1 = 1 := by
  cases canonical with
  | false =>
    simp only [get_sunk_positions] at hrow
    rw [if_neg (by simp)] at hrow
    refine sunk_positions_prov_aux fasta k _ row hrow ?_
    intro nm2 hnm2
    obtain ⟨nm, hnm, hname, hents⟩ := retained_entry hnm2
    rw [List.mem_map] at hnm
    obtain ⟨ns, hns, hnme⟩ := hnm
    refine ⟨ns, hns, by rw [hname, ← hnme], ?_⟩
    intro e he
    obtain ⟨hemem, hecount⟩ := hents e he
    rw [← hnme] at hemem
    exact ⟨hemem, hecount⟩
  | true =>
    simp only [get_sunk_positions] at hrow
    rw [if_pos trivial] at hrow
    refine sunk_positions_prov_aux fasta k _ row hrow ?_
    intro nm3 hnm3
    rw [List.mem_map] at hnm3
    obtain ⟨nm2, hnm2, hnm3e⟩ := hnm3
    obtain ⟨nm, hnm, hname, hents⟩ := retained_entry hnm2
    rw [List.mem_map] at hnm
    obtain ⟨ns, hns, hnme⟩ := hnm
    refine ⟨ns, hns, by rw [← hnm3e]; show nm2.1 = ns.1; rw [hname, ← hnme], ?_⟩
    intro e he
    rw [← hnm3e] at he
    have he2 : e ∈ canonicalRetain nm2.2 := he
    have he3 := (List.mem_filter.mp he2).1
    obtain ⟨hemem, hecount⟩ := hents e he3
    rw [← hnme] at hemem
    exact ⟨hemem, hecount⟩

/-! ## Parity lemmas for palindromic k-mers -/

theorem Base.comp_comp : ∀ b, Base.comp (Base.comp b) = b := by
  intro b
  cases b <;> rfl

theorem rev_comp_involutive : ∀ km : Kmer, rev_comp (rev_comp km) = km := by
  intro km
  simp [rev_comp, List.map_reverse, List.map_map, Function.comp_def, Base.comp_comp]

theorem bump_mapCount (km2 : Kmer) : ∀ (m : KmerMap) (km : Kmer) (pos : Nat),
    mapCount (bumpKmer km pos m) km2 = mapCount m km2 + (if km2 = km then 1 else 0) := by
  intro m
  induction m with
  | nil =>
    intro km pos
    by_cases h : km2 = km
    · simp [bumpKmer, mapCount, h]
    · simp [bumpKmer, mapCount, h, Ne.symm h]
  | cons e0 t ih =>
    intro km pos
    by_cases h0 : e0.1 = km
    · simp only [bumpKmer, if_pos h0]
      by_cases h2 : e0.1 = km2
      · have hkk : km2 = km := h2.symm.trans h0
        simp [mapCount, h2, hkk]
      · have hkk : ¬ km2 = km := by
          intro hkk
          exact h2 (h0.trans hkk.symm)
        simp [mapCount, h2, hkk]
    · simp only [bumpKmer, if_neg h0]
      by_cases h2 : e0.1 = km2
      · have hkk : ¬ km2 = km := by
          intro hkk
          exact h0 (h2.trans hkk)
        simp [mapCount, h2, hkk]
      · simp only [mapCount, if_neg h2]
        exact ih km pos

theorem palindrome_mapCount_even (k : Nat) (seq : List Base) (km : Kmer)
    (hpal : rev_comp km = km) :
    mapCount (get_kmer_counts_pos k seq) km % 2 = 0 := by
  unfold get_kmer_counts_pos
  have aux : ∀ (ws : List (Nat × Kmer × Kmer)) (m : KmerMap),
      (∀ w ∈ ws, w.2.2 = rev_comp w.2.1) →
      mapCount m km % 2 = 0 →
      mapCount (ws.foldl (fun m w => bumpKmer w.2.2 w.1 (bumpKmer w.2.1 w.1 m)) m) km % 2
        = 0 := by
    intro ws
    induction ws with
    | nil => intro m _ hm; exact hm
    | cons w ws2 ih =>
      intro m hws hm
      simp only [List.foldl_cons]
      refine ih _ (fun x hx => hws x (List.mem_cons.mpr (.inr hx))) ?_
      rw [bump_mapCount, bump_mapCount]
      have hw := hws w (List.mem_cons_self _ _)
      by_cases hx : km = w.2.1
      · have hy : km = w.2.2 := by
          rw [hw, ← hx, hpal]
        rw [if_pos hx, if_pos hy]
        omega
      · have hy : ¬ km = w.2.2 := by
          intro hy
          apply hx
          have h3 : rev_comp km = rev_comp (rev_comp w.2.1) := by rw [← hw, ← hy]
          rw [hpal, rev_comp_involutive] at h3
          exact h3
        rw [if_neg hx, if_neg hy]
        omega
  refine aux _ [] ?_ (by simp [mapCount])
  intro w hw
  obtain ⟨_, h1, h2⟩ := with_many_both_pos_mem hw
  rw [h2, h1]

theorem sum_mod_two (l : List Nat) (h : ∀ x ∈ l, x % 2 = 0) : l.sum % 2 = 0 := by
  induction l with
  | nil => rfl
  | cons a t ih =>
    simp only [List.sum_cons]
    have ha := h a (List.mem_cons_self _ _)
    have ht := ih (fun x hx => h x (List.mem_cons.mpr (.inr hx)))
    omega

/-! ## Claim theorems -/

/-- C4: every row of the SUNK table records as cpos the 1-based start of the
k-mer window that generated it: there is a sequence of the FASTA and a
0-based window start p with cpos = p + 1, the window lying inside the
sequence, and the row's k-mer equal to the window or to its reverse
complement. -/
theorem C4_cpos_is_window_start (fasta : List (String × List Base)) (k : Nat)
    (canonical : Bool) (row : SunkRow)
    (hrow : row ∈ get_sunk_positions fasta k canonical) :
    ∃ ns ∈ fasta, ∃ p, row.ctg = ns.1 ∧ row.cpos = p + 1 ∧ p + k ≤ ns.2.length ∧
      (row.kmer = windowAt ns.2 p k ∨ row.kmer = rev_comp (windowAt ns.2 p k)) := by
  obtain ⟨ns, hns, e, he, hctg, hcpos, hkmer, _⟩ :=
    sunk_positions_prov fasta k canonical row hrow
  obtain ⟨p, hp1, hp2, hp3⟩ := get_kmer_counts_pos_prov k ns.2 e he
  refine ⟨ns, hns, p, hctg, by rw [hcpos, hp1], hp2, ?_⟩
  rw [hkmer]
  exact hp3

/-- C4 witness: the first SUNK row of the ACTTTTCA example sits at cpos 1,
the 1-based start of its window. -/
theorem C4_cpos_is_window_start_witness :
    ((⟨"s", 1, [Base.A, Base.C], 1⟩ : SunkRow) ∈ get_sunk_positions fastaC1 2 true) ∧
    (∃ ns ∈ fastaC1, ∃ p, (⟨"s", 1, [Base.A, Base.C], 1⟩ : SunkRow).ctg = ns.1 ∧
      (⟨"s", 1, [Base.A, Base.C], 1⟩ : SunkRow).cpos = p + 1 ∧ p + 2 ≤ ns.2.length ∧
      ((⟨"s", 1, [Base.A, Base.C], 1⟩ : SunkRow).kmer = windowAt ns.2 p 2 ∨
       (⟨"s", 1, [Base.A, Base.C], 1⟩ : SunkRow).kmer = rev_comp (windowAt ns.2 p 2))) :=
  ⟨by decide, C4_cpos_is_window_start fastaC1 2 true _ (by decide)⟩

/-- C9: a palindromic k-mer (equal to its own reverse complement) never
appears in the SUNK table: both of its per-window insertions hit the same
map entry, so its count is even and the count-equals-1 retention drops
it. -/
theorem C9_palindrome_never_sunk (fasta : List (String × List Base)) (k : Nat)
    (canonical : Bool) (km : Kmer) (hpal : rev_comp km = km) (row : SunkRow)
    (hrow : row ∈ get_sunk_positions fasta k canonical) : row.kmer ≠ km := by
  intro hk
  obtain ⟨ns, hns, e, he, hctg, hcpos, hkmer, hcount⟩ :=
    sunk_positions_prov fasta k canonical row hrow
  rw [hkmer] at hk
  rw [hk] at hcount
  have heven : globalCount (fasta.map (fun x => (x.1, get_kmer_counts_pos k x.2))) km % 2
      = 0 := by
    unfold globalCount
    apply sum_mod_two
    intro x hx
    rw [List.map_map, List.mem_map] at hx
    obtain ⟨ns2, _, hxe⟩ := hx
    rw [← hxe]
    exact palindrome_mapCount_even k ns2.2 km hpal
  omega

/-- C9 witness at the palindrome AT and the ACTTTTCA example. -/
theorem C9_palindrome_never_sunk_witness :
    rev_comp [Base.A, Base.T] = [Base.A, Base.T] ∧
    ((⟨"s", 1, [Base.A, Base.C], 1⟩ : SunkRow) ∈ get_sunk_positions fastaC1 2 true) ∧
    (⟨"s", 1, [Base.A, Base.C], 1⟩ : SunkRow).kmer ≠ [Base.A, Base.T] :=
  ⟨by decide, by decide,
    C9_palindrome_never_sunk fastaC1 2 true _ (by decide) _ (by decide)⟩

/-- C1: the claim asserts the I2 group invariant of the SUNK table (equal
group implies same ctg, consecutive cpos, group value equal to the first
cpos of the run, isolated SUNKs their own group).  The code violates it: on
the FASTA with one sequence ACTTTTCA and k = 2, canonical, the SUNKs sit at
cpos 1, 2, 6, 7, and the rows at cpos 1, 2 and 6 all receive group 1 even
though 6 is not adjacent, while the isolated SUNK at 7 gets group 7.  The
rle-id renumbering in the source disagrees with its own worked comment
(grp 0 0 0 1 2 is documented to become 1 1 1 3 3 but the code yields
1 1 1 1 3), so this is recorded as a code bug. -/
theorem C1_group_invariant_code_bug :
    (get_sunk_positions fastaC1 2 true).map (fun r => (r.ctg, r.cpos, r.group)) =
      [("s", 1, 1), ("s", 2, 1), ("s", 6, 1), ("s", 7, 7)] ∧
    ∃ r1 ∈ get_sunk_positions fastaC1 2 true, ∃ r2 ∈ get_sunk_positions fastaC1 2 true,
      r1.ctg = r2.ctg ∧ r1.group = r2.group ∧ r1.cpos + 4 = r2.cpos := by
  decide

/-- C2: the claim asserts that filter_bad_sunks also marks ids of coverage
< 2 as bad, and that on the histogram id1:10, id2:11, id3:10, id4:50, id5:1
the bad set is exactly id4 and id5.  The code drops coverage-at-most-2 rows
before the final filter, so its count < 2 arm can never fire and only id4 is
returned; id5 (coverage 1) is absent. -/
theorem C2_low_coverage_code_bug :
    filter_bad_sunks rowsC2 = [("c:4", 50)] ∧
    "c:5" ∉ (filter_bad_sunks rowsC2).map Prod.fst := by
  decide

/-- C3: the claim asserts that every per-read failure in the SUNK graph
stage only skips that read and create_sunk_graph still returns a result.  On
a contig slice whose single surviving read fails the in-band test the read
is skipped, no read remains, and create_sunk_graph unwraps an empty reduce:
it panics (modelled as none) instead of returning a result. -/
theorem C3_per_read_failure_code_bug :
    (sunkGraphPartitions rowsC3 lensC3 []).map
        (fun p => get_read_largest_sunk_graph_component p.2) = [Except.ok none] ∧
    create_sunk_graph "c" rowsC3 lensC3 [] = none :=
  ⟨rfl, rfl⟩

/-- C7: every BED row emitted by get_contig_sunk_graph_components comes from
a connected component of the multi-read graph of size > 2, with st the
minimum member id, end the maximum member id, sunks the component size, and
st ≤ end.  The id bounds are those of the pipeline (group anchors are
nonnegative i64 values); they make the i64::MAX min seed and the 0 max seed
transparent. -/
theorem C7_bed_component_rows (ctg : String) (rnames : List String) (ids : List Int)
    (hpos : ∀ i ∈ ids, 0 ≤ i ∧ i ≤ i64Max) :
    ∀ row ∈ get_contig_sunk_graph_components ctg rnames ids,
      ∃ comp ∈ connectedComponents (List.range ids.length) (contigEdges rnames ids),
        ∃ w, w = comp.map (fun i => ids.getD i 0) ∧ 2 < w.length ∧
          row.ctg = ctg ∧ row.sunks = w.length ∧
          row.st ∈ w ∧ (∀ x ∈ w, row.st ≤ x) ∧
          row.bedEnd ∈ w ∧ (∀ x ∈ w, x ≤ row.bedEnd) ∧ row.st ≤ row.bedEnd := by
  intro row hrow
  unfold get_contig_sunk_graph_components at hrow
  rw [List.mem_filterMap] at hrow
  obtain ⟨w, hw, hsome⟩ := hrow
  rw [List.mem_map] at hw
  obtain ⟨comp, hcomp, rfl⟩ := hw
  by_cases hlen : 2 < (comp.map (fun i => ids.getD i 0)).length
  · rw [if_pos hlen] at hsome
    have hrow2 := Option.some.inj hsome
    have hb : ∀ x ∈ comp.map (fun i => ids.getD i 0), 0 ≤ x ∧ x ≤ i64Max := by
      intro x hx
      rw [List.mem_map] at hx
      obtain ⟨i, hi, rfl⟩ := hx
      by_cases hlt : i < ids.length
      · rw [List.getD_eq_getElem ids 0 hlt]
        exact hpos _ (List.getElem_mem hlt)
      · rw [List.getD_eq_default ids 0 (by omega)]
        refine ⟨le_refl 0, ?_⟩
        norm_num [i64Max]
    have hne : comp.map (fun i => ids.getD i 0) ≠ [] := by
      intro h
      rw [h] at hlen
      simp at hlen
    obtain ⟨hstmem, hstle⟩ := foldl_min_mem_of_bounded hne (fun x hx => (hb x hx).2)
    obtain ⟨hendmem, hendge⟩ := foldl_max_mem_of_bounded hne (fun x hx => (hb x hx).1)
    refine ⟨comp, hcomp, comp.map (fun i => ids.getD i 0), rfl, hlen, ?_⟩
    rw [← hrow2]
    exact ⟨rfl, rfl, hstmem, hstle, hendmem, hendge, hendge _ hstmem⟩
  · rw [if_neg hlen] at hsome
    exact absurd hsome (by simp)

/-- C7 witness: a single read carrying ids 1, 2, 3 produces the component
with the BED row (c, 1, 3, 3). -/
theorem C7_bed_component_rows_witness :
    (∀ i ∈ ([1, 2, 3] : List Int), 0 ≤ i ∧ i ≤ i64Max) ∧
    ((⟨"c", 1, 3, 3⟩ : BedRow) ∈
      get_contig_sunk_graph_components "c" ["r", "r", "r"] [1, 2, 3]) ∧
    (∃ comp ∈ connectedComponents (List.range ([1, 2, 3] : List Int).length)
        (contigEdges ["r", "r", "r"] [1, 2, 3]),
      ∃ w, w = comp.map (fun i => ([1, 2, 3] : List Int).getD i 0) ∧ 2 < w.length ∧
        (⟨"c", 1, 3, 3⟩ : BedRow).ctg = "c" ∧
        (⟨"c", 1, 3, 3⟩ : BedRow).sunks = w.length ∧
        (⟨"c", 1, 3, 3⟩ : BedRow).st ∈ w ∧
        (∀ x ∈ w, (⟨"c", 1, 3, 3⟩ : BedRow).st ≤ x) ∧
        (⟨"c", 1, 3, 3⟩ : BedRow).bedEnd ∈ w ∧
        (∀ x ∈ w, x ≤ (⟨"c", 1, 3, 3⟩ : BedRow).bedEnd) ∧
        (⟨"c", 1, 3, 3⟩ : BedRow).st ≤ (⟨"c", 1, 3, 3⟩ : BedRow).bedEnd) :=
  ⟨by decide, by decide,
    C7_bed_component_rows "c" ["r", "r", "r"] [1, 2, 3] (by decide) _ (by decide)⟩

/-- C8 counterexample: the claim says map_sunks_to_reads fails with the
EmptySunkSet error whenever zero SUNKs are given, but with zero SUNKs and
zero reads no worker ever calls map_sunks_to_seq and the function returns an
empty table. -/
theorem C8_counterexample : map_sunks_to_reads [] [] = some [] := rfl

/-- C8 amended: with zero SUNKs, map_sunks_to_reads fails (a worker panics
on the EmptySunkSet error of map_sunks_to_seq, which the caller unwraps
rather than propagates) exactly when at least one read is present; with zero
reads it returns an empty table. -/
theorem C8_empty_sunks_amended (reads : List (String × List Base))
    (df_sunks : List SunkRow) (h : df_sunks = []) :
    (map_sunks_to_reads reads df_sunks = none ↔ reads ≠ []) := by
  subst h
  unfold map_sunks_to_reads
  by_cases hr : reads = []
  · subst hr; simp
  · simp [hr]

theorem C8_empty_sunks_amended_witness :
    (map_sunks_to_reads [("r", [Base.A])] [] = none ↔
      ([("r", [Base.A])] : List (String × List Base)) ≠ []) :=
  C8_empty_sunks_amended [("r", [Base.A])] [] rfl

/-! ## Lemmas for the orientation table -/

theorem zip_map_some_filterMap : ∀ (t : List Int) (p : Int),
    (t.zip (((p :: t).map some))).filterMap (fun ab => ab.2.map (fun b => ab.1 - b)) =
      List.zipWith (fun a b => a - b) t (p :: t) := by
  intro t
  induction t with
  | nil => intro p; rfl
  | cons a t2 ih =>
    intro p
    show (a - p) :: (t2.zip ((a :: t2).map some)).filterMap
        (fun ab => ab.2.map (fun b => ab.1 - b)) =
      (a - p) :: List.zipWith (fun a b => a - b) t2 (a :: t2)
    exact congrArg _ (ih a)

theorem polarsDiffs_eq_consecDiffs : ∀ (xs : List Int), polarsDiffs xs = consecDiffs xs := by
  intro xs
  cases xs with
  | nil => rfl
  | cons x t =>
    show (t.zip ((x :: t).map some)).filterMap (fun ab => ab.2.map (fun b => ab.1 - b)) =
      List.zipWith (fun a b => a - b) t (x :: t)
    exact zip_map_some_filterMap t x

theorem keptRows_filter_class (rows : List ReadCtgRow) (rd c : String)
    (h2 : 1 < (rows.filter (fun b => b.read = rd ∧ b.ctg = c)).length) :
    (keptRows rows).filter (fun b => b.read = rd ∧ b.ctg = c) =
      rows.filter (fun b => b.read = rd ∧ b.ctg = c) := by
  unfold keptRows
  rw [List.filter_filter]
  apply List.filter_congr
  intro r _
  by_cases hcls : r.read = rd ∧ r.ctg = c
  · have e1 : decide (r.read = rd ∧ r.ctg = c) = true := decide_eq_true hcls
    have e2 : decide
        (1 < (rows.filter (fun b => b.read = r.read ∧ b.ctg = r.ctg)).length) = true := by
      rw [hcls.1, hcls.2]
      exact decide_eq_true h2
    rw [e1, e2]
    rfl
  · have e1 : decide (r.read = rd ∧ r.ctg = c) = false := decide_eq_false hcls
    rw [e1]
    rfl

theorem mem_keptRows_of_class (rows : List ReadCtgRow) (rd c : String)
    (h2 : 1 < (rows.filter (fun b => b.read = rd ∧ b.ctg = c)).length)
    (r : ReadCtgRow) (hr : r ∈ rows) (hcls : r.read = rd ∧ r.ctg = c) :
    r ∈ keptRows rows := by
  unfold keptRows
  rw [List.mem_filter]
  refine ⟨hr, ?_⟩
  rw [hcls.1, hcls.2]
  exact decide_eq_true h2

/-- C6: for every (read, ctg) group with at least 2 SUNK rows, the
orientation table of assign_read_to_ctg_w_ort carries an entry whose ort is
"+" exactly when the means of the consecutive differences of cpos and of
rpos (in row order) are both positive, and "-" otherwise. -/
theorem C6_orientation_sign (rows : List ReadCtgRow) (rd c : String)
    (h2 : 1 < (rows.filter (fun b => b.read = rd ∧ b.ctg = c)).length) :
    ∃ e ∈ ortTable rows, e.read = rd ∧ e.ctg = c ∧
      (e.ort = "+" ↔
        (0 < meanQ (consecDiffs
            ((rows.filter (fun b => b.read = rd ∧ b.ctg = c)).map (fun r => r.cpos))) ∧
         0 < meanQ (consecDiffs
            ((rows.filter (fun b => b.read = rd ∧ b.ctg = c)).map (fun r => r.rpos))))) ∧
      (¬ (0 < meanQ (consecDiffs
            ((rows.filter (fun b => b.read = rd ∧ b.ctg = c)).map (fun r => r.cpos))) ∧
          0 < meanQ (consecDiffs
            ((rows.filter (fun b => b.read = rd ∧ b.ctg = c)).map (fun r => r.rpos)))) →
        e.ort = "-") := by
  have hne : rows.filter (fun b => b.read = rd ∧ b.ctg = c) ≠ [] := by
    intro h
    rw [h] at h2
    simp at h2
  obtain ⟨r0, hr0⟩ := List.exists_mem_of_ne_nil _ hne
  have hr0rows := (List.mem_filter.mp hr0).1
  have hr0cls : r0.read = rd ∧ r0.ctg = c := by
    have := (List.mem_filter.mp hr0).2
    simpa using this
  have hkept := mem_keptRows_of_class rows rd c h2 r0 hr0rows hr0cls
  have hkey : (rd, c) ∈ (keptRows rows).map (fun r => (r.read, r.ctg)) := by
    rw [List.mem_map]
    exact ⟨r0, hkept, by rw [hr0cls.1, hr0cls.2]⟩
  have hgrp := groupByKey_mem_of_key hkey
  have hfe : ((keptRows rows).filter
      (fun b => (b.read, b.ctg) = (rd, c))) =
      rows.filter (fun b => b.read = rd ∧ b.ctg = c) := by
    rw [← keptRows_filter_class rows rd c h2]
    apply List.filter_congr
    intro b _
    simp [Prod.ext_iff]
  rw [hfe] at hgrp
  refine ⟨⟨rd, c,
      decide (0 < meanQ (polarsDiffs
        ((rows.filter (fun b => b.read = rd ∧ b.ctg = c)).map (fun r => r.cpos)))),
      decide (0 < meanQ (polarsDiffs
        ((rows.filter (fun b => b.read = rd ∧ b.ctg = c)).map (fun r => r.rpos)))),
      if (decide (0 < meanQ (polarsDiffs
            ((rows.filter (fun b => b.read = rd ∧ b.ctg = c)).map (fun r => r.rpos)))) &&
          decide (0 < meanQ (polarsDiffs
            ((rows.filter (fun b => b.read = rd ∧ b.ctg = c)).map (fun r => r.cpos)))))
      then "+" else "-"⟩, ?_, rfl, rfl, ?_, ?_⟩
  · unfold ortTable
    exact List.mem_map.mpr
      ⟨((rd, c), rows.filter (fun b => b.read = rd ∧ b.ctg = c)), hgrp, rfl⟩
  · simp only [polarsDiffs_eq_consecDiffs]
    have hminus : ("-" : String) ≠ "+" := by decide
    by_cases hC : 0 < meanQ (consecDiffs
        ((rows.filter (fun b => b.read = rd ∧ b.ctg = c)).map (fun r => r.cpos)))
    · by_cases hR : 0 < meanQ (consecDiffs
          ((rows.filter (fun b => b.read = rd ∧ b.ctg = c)).map (fun r => r.rpos)))
      · rw [decide_eq_true hC, decide_eq_true hR]
        exact ⟨fun _ => ⟨hC, hR⟩, fun _ => rfl⟩
      · rw [decide_eq_true hC, decide_eq_false hR]
        exact ⟨fun habs => absurd habs hminus, fun hand => absurd hand.2 hR⟩
    · by_cases hR : 0 < meanQ (consecDiffs
          ((rows.filter (fun b => b.read = rd ∧ b.ctg = c)).map (fun r => r.rpos)))
      · rw [decide_eq_false hC, decide_eq_true hR]
        exact ⟨fun habs => absurd habs hminus, fun hand => absurd hand.1 hC⟩
      · rw [decide_eq_false hC, decide_eq_false hR]
        exact ⟨fun habs => absurd habs hminus, fun hand => absurd hand.1 hC⟩
  · intro h
    simp only [polarsDiffs_eq_consecDiffs]
    by_cases hC : 0 < meanQ (consecDiffs
        ((rows.filter (fun b => b.read = rd ∧ b.ctg = c)).map (fun r => r.cpos)))
    · by_cases hR : 0 < meanQ (consecDiffs
          ((rows.filter (fun b => b.read = rd ∧ b.ctg = c)).map (fun r => r.rpos)))
      · exact absurd ⟨hC, hR⟩ h
      · rw [decide_eq_true hC, decide_eq_false hR]
        rfl
    · by_cases hR : 0 < meanQ (consecDiffs
          ((rows.filter (fun b => b.read = rd ∧ b.ctg = c)).map (fun r => r.rpos)))
      · rw [decide_eq_false hC, decide_eq_true hR]
        rfl
      · rw [decide_eq_false hC, decide_eq_false hR]
        rfl

/-- C6 witness: a forward read with two SUNK rows on one contig. -/
theorem C6_orientation_sign_witness :
    ∃ e ∈ ortTable [⟨"r", "c", 1, 1⟩, ⟨"r", "c", 3, 2⟩], e.read = "r" ∧ e.ctg = "c" ∧
      (e.ort = "+" ↔
        (0 < meanQ (consecDiffs
            (([⟨"r", "c", 1, 1⟩, ⟨"r", "c", 3, 2⟩].filter
              (fun b : ReadCtgRow => b.read = "r" ∧ b.ctg = "c")).map (fun r => r.cpos))) ∧
         0 < meanQ (consecDiffs
            (([⟨"r", "c", 1, 1⟩, ⟨"r", "c", 3, 2⟩].filter
              (fun b : ReadCtgRow => b.read = "r" ∧ b.ctg = "c")).map (fun r => r.rpos))))) ∧
      (¬ (0 < meanQ (consecDiffs
            (([⟨"r", "c", 1, 1⟩, ⟨"r", "c", 3, 2⟩].filter
              (fun b : ReadCtgRow => b.read = "r" ∧ b.ctg = "c")).map (fun r => r.cpos))) ∧
          0 < meanQ (consecDiffs
            (([⟨"r", "c", 1, 1⟩, ⟨"r", "c", 3, 2⟩].filter
              (fun b : ReadCtgRow => b.read = "r" ∧ b.ctg = "c")).map (fun r => r.rpos)))) →
        e.ort = "-") :=
  C6_orientation_sign [⟨"r", "c", 1, 1⟩, ⟨"r", "c", 3, 2⟩] "r" "c" (by decide)

/-- C10: create_sunk_graph returns a result exactly when some read of the
contig slice survives the pre-filters and yields a largest-component id
list; equivalently it panics (none: the unwrap of the empty reduce, or of a
per-read error, which lemma largest_component_no_error rules out) precisely
when every surviving read yields no component — in particular when no read
survives at all. -/
theorem C10_create_sunk_graph_panics (ctg : String) (rows : List GraphRow)
    (lens : List (String × Int)) (bad : List (String × Int)) :
    create_sunk_graph ctg rows lens bad = none ↔
      ∀ p ∈ sunkGraphPartitions rows lens bad,
        get_read_largest_sunk_graph_component p.2 = Except.ok none := by
  unfold create_sunk_graph
  cases hc : collectComponents (sunkGraphPartitions rows lens bad) with
  | none => exact absurd hc (collect_ne_none _)
  | some l =>
    cases l with
    | nil =>
      rw [← collect_nil_iff, hc]
      simp
    | cons c cs =>
      constructor
      · intro h; simp at h
      · intro h
        have h2 := (collect_nil_iff _).mpr h
        rw [hc] at h2
        simp at h2

end Gavisunk
